import Mathlib

/-!
Verification development for the pi5-voice-assistant repository.

Shallow embedding of the three algorithmic cores, faithful to the Python
sources:
  * `src/pipelines/robot/keyword_router.py` — keyword-first intent router
    (`route_command`, `_match_single`, `_extract_number`, the pattern table
    and the compound splitter).  The Python regexes are hand-compiled into
    explicit searching functions over `List Char`; `re.I` is realised by
    lowercasing through `sLower`, `\b` by `bdryAt`, `\w` by `isWordChar`
    (ASCII letters, digits, underscore and the Spanish accented letters,
    which is the alphabet the router's vocabulary lives in), `\s` by
    `isSpaceCh`.
  * `src/app/engine.py` — the incremental sentence segmenter inside
    `InferenceEngine.generate_stream` (token accumulation, `<think>` block
    suppression and removal, sentence-boundary emission, final flush).
  * `src/app/conversation.py` — the bounded sliding-window history
    (`deque(maxlen = max_turns * 2)`, `add_exchange`, `clear`).

Machine floats from Python's `float(...)` are modelled as exact rationals;
every numeric literal the router can produce on the inputs considered here
is exactly representable, so no rounding behaviour is lost.
-/

namespace PiVoice

/-! ## Characters: case folding, word characters, whitespace -/

/-- Uppercase/lowercase pairs handled by `str.lower()` on the router's
alphabet: ASCII letters plus the Spanish accented letters. -/
def lowerPairs : List (Char × Char) :=
  [('A', 'a'), ('B', 'b'), ('C', 'c'), ('D', 'd'), ('E', 'e'), ('F', 'f'),
   ('G', 'g'), ('H', 'h'), ('I', 'i'), ('J', 'j'), ('K', 'k'), ('L', 'l'),
   ('M', 'm'), ('N', 'n'), ('O', 'o'), ('P', 'p'), ('Q', 'q'), ('R', 'r'),
   ('S', 's'), ('T', 't'), ('U', 'u'), ('V', 'v'), ('W', 'w'), ('X', 'x'),
   ('Y', 'y'), ('Z', 'z'), ('Á', 'á'), ('É', 'é'), ('Í', 'í'), ('Ó', 'ó'),
   ('Ú', 'ú'), ('Ü', 'ü'), ('Ñ', 'ñ')]

/-- Python `str.lower()` on a single character of the modelled alphabet. -/
def sLower (c : Char) : Char :=
  match lowerPairs.find? (fun p => p.1 == c) with
  | some p => p.2
  | none => c

/-- Python `str.lower()` on a string (character-wise on this alphabet). -/
def lowerL (s : List Char) : List Char := s.map sLower

/-- The accented letters that count as word characters (`\w`) here. -/
def accentChars : List Char :=
  ['á', 'é', 'í', 'ó', 'ú', 'ü', 'ñ', 'Á', 'É', 'Í', 'Ó', 'Ú', 'Ü', 'Ñ']

/-- Python regex `\w` on the modelled alphabet. -/
def isWordChar (c : Char) : Bool :=
  ('a' ≤ c && c ≤ 'z') || ('A' ≤ c && c ≤ 'Z') || ('0' ≤ c && c ≤ '9') ||
  c == '_' || accentChars.contains c

/-- Python regex `\s` / `str.strip()` whitespace. -/
def isSpaceCh (c : Char) : Bool :=
  c == ' ' || c == '\t' || c == '\n' || c == '\r' ||
  c == Char.ofNat 11 || c == Char.ofNat 12

/-- Python `str.strip()`. -/
def stripL (s : List Char) : List Char :=
  ((s.dropWhile isSpaceCh).reverse.dropWhile isSpaceCh).reverse

/-! ## Word boundaries and literal search -/

/-- Whether position `i` of `s` holds a word character (out of range: no). -/
def wordAt (s : List Char) (i : Nat) : Bool :=
  match s[i]? with
  | some c => isWordChar c
  | none => false

/-- Python regex `\b` at position `i` (between `s[i-1]` and `s[i]`). -/
def bdryAt (s : List Char) (i : Nat) : Bool :=
  (if i = 0 then false else wordAt s (i - 1)) != wordAt s i

/-- The literal `lit` occurs in `s` starting at position `i`. -/
def litAt (s : List Char) (i : Nat) (lit : List Char) : Bool :=
  lit.isPrefixOf (s.drop i)

/-- Search for `\b(alt₁|alt₂|…)\b` anywhere in `s` (the alternatives are
word-bounded literals; only the boolean result is needed by the router). -/
def searchAlts (alts : List (List Char)) (s : List Char) : Bool :=
  (List.range (s.length + 1)).any fun i =>
    alts.any fun a => bdryAt s i && litAt s i a && bdryAt s (i + a.length)

/-- Search for `\b(verb₁|verb₂|…).*tail\b` anywhere in `s`: a word-bounded
verb, then any characters except newline, then the literal `tail` followed
by a word boundary (no boundary between verb and the gap, faithful to the
source patterns). -/
def searchVerbThen (verbs : List (List Char)) (tail : List Char)
    (s : List Char) : Bool :=
  (List.range (s.length + 1)).any fun i =>
    bdryAt s i && verbs.any fun v =>
      litAt s i v && (List.range (s.length + 1)).any fun j =>
        i + v.length ≤ j && litAt s j tail && bdryAt s (j + tail.length) &&
        (((s.drop (i + v.length)).take (j - (i + v.length))).all
          fun c => !(c == '\n'))

/-- `sub` occurs somewhere in `s` (Python `sub in s`). -/
def containsSub (s sub : List Char) : Bool :=
  (List.range (s.length + 1)).any fun i => sub.isPrefixOf (s.drop i)

/-! ## Filler stripping (`re.sub` of the vocative/courtesy pattern) -/

/-- The apostrophe character (kept out of literals). -/
def apoCh : Char := Char.ofNat 39

/-- Case-insensitive literal match at the head of `s`: `alt` is a lowercase
literal; on success returns the rest of `s`. -/
def ciMatch : List Char → List Char → Option (List Char)
  | [], s => some s
  | _ :: _, [] => none
  | a :: as, c :: cs => if sLower c == a then ciMatch as cs else none

/-- The alternatives of the filler pattern
`\b(oye|eh|hey|robot|por favor|porfa|venga|¿puedes\??|puedes)\b`, in the
engine's preference order (`¿puedes\??` expands to its greedy-first two
literal forms). -/
def fillerAlts : List (List Char) :=
  ["oye".data, "eh".data, "hey".data, "robot".data, "por favor".data,
   "porfa".data, "venga".data, "¿puedes?".data, "¿puedes".data,
   "puedes".data]

/-- Head character of an alternative (alternatives are never empty). -/
def altHeadW (alt : List Char) : Bool :=
  match alt with
  | c :: _ => isWordChar c
  | [] => false

/-- Word-ness of the last character of an alternative. -/
def altLastW (alt : List Char) : Bool :=
  match alt.getLast? with
  | some c => isWordChar c
  | none => false

/-- Word-ness of the head of a list (used for the trailing `\b`). -/
def headW (s : List Char) : Bool :=
  match s with
  | c :: _ => isWordChar c
  | [] => false

/-- Try the filler alternatives at the current position.  `prevW` is the
word-ness of the character just before the position (`false` at the start).
Both `\b` checks use the word-ness of the matched characters, which equals
the word-ness of the literal's own characters since case folding preserves
word-ness.  On success returns the word-ness of the last matched character
and the rest of the text. -/
def tryAlts : List (List Char) → Bool → List Char → Option (Bool × List Char)
  | [], _, _ => none
  | alt :: rest, prevW, s =>
    match ciMatch alt s with
    | some r =>
      if (prevW != altHeadW alt) && (altLastW alt != headW r) then
        some (altLastW alt, r)
      else tryAlts rest prevW s
    | none => tryAlts rest prevW s

/-- Left-to-right non-overlapping `re.sub(pattern, "", text)` scan; `fuel`
is at least the length of the remaining text. -/
def subFillersAux : Nat → Bool → List Char → List Char
  | 0, _, s => s
  | _ + 1, _, [] => []
  | fuel + 1, prevW, c :: cs =>
    match tryAlts fillerAlts prevW (c :: cs) with
    | some (w, rest) => subFillersAux fuel w rest
    | none => c :: subFillersAux fuel (isWordChar c) cs

/-- `re.sub(r"\b(oye|eh|hey|robot|por favor|porfa|venga|¿puedes\??|puedes)\b",
"", text, flags=re.I)`. -/
def subFillers (s : List Char) : List Char :=
  subFillersAux s.length false s

/-! ## Compound splitter (`COMPOUND_SPLITTER.split`) -/

/-- `(?:luego\s+|después\s+)?` — greedy optional tail of a separator. -/
def optLuego (r : List Char) : List Char :=
  match ciMatch "luego".data r with
  | some r2 =>
    if (r2.takeWhile isSpaceCh).length ≠ 0 then r2.dropWhile isSpaceCh
    else
      match ciMatch "después".data r with
      | some r3 =>
        if (r3.takeWhile isSpaceCh).length ≠ 0 then r3.dropWhile isSpaceCh
        else r
      | none => r
  | none =>
    match ciMatch "después".data r with
    | some r3 =>
      if (r3.takeWhile isSpaceCh).length ≠ 0 then r3.dropWhile isSpaceCh
      else r
    | none => r

/-- Try to match the compound separator
`\s+(?:y\s+(?:luego\s+|después\s+)?|,\s*(?:luego\s+|después\s+)?|luego\s+|después\s+)`
at the head of `s`; on success return the rest after the separator. -/
def matchSep (s : List Char) : Option (List Char) :=
  if (s.takeWhile isSpaceCh).length = 0 then none
  else
    match s.dropWhile isSpaceCh with
    | [] => none
    | c :: cs =>
      if sLower c == 'y' then
        if (cs.takeWhile isSpaceCh).length = 0 then none
        else some (optLuego (cs.dropWhile isSpaceCh))
      else if c == ',' then
        some (optLuego (cs.dropWhile isSpaceCh))
      else
        match ciMatch "luego".data (c :: cs) with
        | some r2 =>
          if (r2.takeWhile isSpaceCh).length ≠ 0 then
            some (r2.dropWhile isSpaceCh)
          else none
        | none =>
          match ciMatch "después".data (c :: cs) with
          | some r3 =>
            if (r3.takeWhile isSpaceCh).length ≠ 0 then
              some (r3.dropWhile isSpaceCh)
            else none
          | none => none

/-- `re.split` scan: cut the text at every separator occurrence.  `acc` is
the reversed current fragment, `fuel` at least the remaining length. -/
def splitAux : Nat → List Char → List Char → List (List Char)
  | 0, acc, s => [acc.reverse ++ s]
  | _ + 1, acc, [] => [acc.reverse]
  | fuel + 1, acc, c :: cs =>
    match matchSep (c :: cs) with
    | some rest => acc.reverse :: splitAux fuel [] rest
    | none => splitAux fuel (c :: acc) cs

/-- `COMPOUND_SPLITTER.split(text)`. -/
def splitParts (s : List Char) : List (List Char) :=
  splitAux s.length [] s

/-! ## Number extraction (`WORD_NUMBERS`, `DIGIT_NUMBER`, `_extract_number`) -/

/-- The `WORD_NUMBERS` table, with exact rational values. -/
def WORD_NUMBERS : List (List Char × ℚ) :=
  [("cero".data, 0), ("medio".data, 1/2), ("media".data, 1/2),
   ("un".data, 1), ("uno".data, 1), ("una".data, 1),
   ("dos".data, 2), ("tres".data, 3), ("cuatro".data, 4), ("cinco".data, 5),
   ("seis".data, 6), ("siete".data, 7), ("ocho".data, 8), ("nueve".data, 9),
   ("diez".data, 10), ("quince".data, 15), ("veinte".data, 20),
   ("veinticinco".data, 25), ("treinta".data, 30), ("cuarenta".data, 40),
   ("cuarenta y cinco".data, 45), ("cincuenta".data, 50),
   ("sesenta".data, 60), ("noventa".data, 90),
   ("cien".data, 100), ("ciento".data, 100),
   ("ciento ochenta".data, 180), ("ciento veinte".data, 120),
   ("trescientos sesenta".data, 360), ("trescientos".data, 300)]

/-- ASCII digit (`\d` on the modelled alphabet). -/
def isDigitCh (c : Char) : Bool := '0' ≤ c && c ≤ '9'

/-- `\w` or `\s` (the characters the lazy capture group may span). -/
def wordOrSpace (c : Char) : Bool := isWordChar c || isSpaceCh c

/-- Length of the whitespace run of `s` starting at position `p`. -/
def wsRunAt (s : List Char) (p : Nat) : Nat :=
  ((s.drop p).takeWhile isSpaceCh).length

/-- Whether `\s*unit` matches in `s` at position `p` (`unit` is `metro` or
`grado`; the trailing `s?` of the source pattern is optional and therefore
irrelevant to matching and to the capture group). -/
def restMatchesAt (s : List Char) (p : Nat) (unit : List Char) : Bool :=
  litAt s (p + wsRunAt s p) unit

/-- `re.search` of `(\w[\w\s]*?)\s*unit` and its capture group: the leftmost
starting position wins, and at that position the lazy group takes the fewest
characters that let `\s*unit` match.  Returns the captured group. -/
def unitGroup (unit : List Char) (s : List Char) : Option (List Char) :=
  (List.range s.length).findSome? fun i =>
    if wordAt s i then
      let ext := ((s.drop (i + 1)).takeWhile wordOrSpace).length
      ((List.range' (i + 1) (ext + 1)).find? fun p =>
        restMatchesAt s p unit).map fun p => (s.drop i).take (p - i)
    else none

/-- `DIGIT_NUMBER.search` (`\b(\d+(?:[.,]\d+)?)\b`): leftmost digit run with
a word boundary before it; the greedy optional fractional part is kept only
when the trailing `\b` still holds, otherwise matching backtracks to the
integer part.  Returns the matched group. -/
def digitSearch (s : List Char) : Option (List Char) :=
  (List.range s.length).findSome? fun i =>
    if bdryAt s i && (match s[i]? with | some c => isDigitCh c | none => false)
    then
      let d1 := (s.drop i).takeWhile isDigitCh
      let j := i + d1.length
      match s[j]? with
      | some c =>
        if (c == '.' || c == ',') &&
            (match s[j + 1]? with | some d => isDigitCh d | none => false) then
          let d2 := (s.drop (j + 1)).takeWhile isDigitCh
          let k := j + 1 + d2.length
          if !wordAt s k then some (d1 ++ [c] ++ d2) else some d1
        else if !wordAt s j then some d1
        else none
      | none => some d1
    else none

/-- Digit characters to a natural number. -/
def digitsToNat (l : List Char) : Nat :=
  l.foldl (fun a c => 10 * a + (c.toNat - 48)) 0

/-- `float(group.replace(",", "."))` on a matched digit group, as an exact
rational. -/
def parseRat (l : List Char) : ℚ :=
  let ip := l.takeWhile isDigitCh
  match l.dropWhile isDigitCh with
  | [] => (digitsToNat ip : ℚ)
  | _ :: fp => (digitsToNat ip : ℚ) + (digitsToNat fp : ℚ) / (10 ^ fp.length : ℚ)

/-- `_extract_number(text, pattern)` for the unit-specific pattern
`(\w[\w\s]*?)\s*units?`. -/
def extractNumber (t : List Char) (unit : List Char) : Option ℚ :=
  match unitGroup unit t with
  | none => none
  | some g =>
    let numberStr := lowerL (stripL g)
    match (WORD_NUMBERS.find? fun p => p.1 == numberStr).map (fun p => p.2) with
    | some v => some v
    | none =>
      match digitSearch numberStr with
      | some ds => some (parseRat ds)
      | none => none

/-! ## The pattern table and `_match_single` -/

/-- A parameter value: a string or an (exact) number. -/
inductive PVal where
  | s (v : String)
  | q (v : ℚ)
deriving DecidableEq, Repr

/-- One action of the actions array (`ActionResult` in the source). -/
structure ActionResult where
  action : String
  params : List (String × PVal)
  confirmation : String
deriving DecidableEq, Repr

/-- `RouterResult` in the source. -/
structure RouterResult where
  matched : Bool
  actions : List ActionResult
deriving DecidableEq, Repr

def stopAlts : List (List Char) :=
  ["para".data, "stop".data, "detente".data, "quieto".data, "frena".data,
   "basta".data, "alto".data, "no te muevas".data]

def sleepAlts : List (List Char) :=
  ["duerme".data, "duérmete".data, "a dormir".data, "descansa".data,
   "reposo".data, "modo reposo".data, "relájate".data]

def wakeAlts : List (List Char) :=
  ["despierta".data, "arriba".data, "actívate".data, "espabila".data,
   "levanta".data, "vamos".data]

def danceAlts : List (List Char) :=
  ["baila".data, "bailar".data, "menéate".data, "mueve el esqueleto".data]

/-- Forward-movement alternatives; `pa'?lante` expands to its two literal
forms. -/
def fwdAlts : List (List Char) :=
  ["avanza".data, "adelante".data, "hacia adelante".data, "camina".data,
   "muévete".data, "ve".data, "anda".data, "sigue".data, "palante".data,
   "pa".data ++ [apoCh] ++ "lante".data]

/-- Backward-movement alternatives; `pa'?trás` expands likewise. -/
def bwdAlts : List (List Char) :=
  ["retrocede".data, "atrás".data, "hacia atrás".data, "marcha atrás".data,
   "patrás".data, "pa".data ++ [apoCh] ++ "trás".data, "recular".data]

def turnVerbs : List (List Char) :=
  ["gira".data, "tuerce".data, "rota".data, "dobla".data, "voltea".data,
   "da la vuelta".data, "date la vuelta".data]

def grabAlts : List (List Char) :=
  ["agarra".data, "coge".data, "sujeta".data, "toma".data]

def releaseAlts : List (List Char) :=
  ["suelta".data, "libera".data, "deja".data, "soltar".data]

def fullTurnAlts : List (List Char) :=
  ["vuelta completa".data, "giro completo".data, "360".data]

def halfTurnAlts : List (List Char) := ["media vuelta".data]

def quarterTurnAlts : List (List Char) := ["cuarto de vuelta".data]

/-- Update a parameter value in place (the key is always present in the
defaults being updated, mirroring Python dict assignment). -/
def setParam (ps : List (String × PVal)) (k : String) (v : PVal) :
    List (String × PVal) :=
  ps.map fun p => if p.1 = k then (p.1, v) else p

/-- Parameter refinement for a matched `turn` rule. -/
def turnParams (t : List Char) (dir : String) : List (String × PVal) :=
  let ps : List (String × PVal) := [("direction", .s dir), ("angle", .q 90)]
  if searchAlts fullTurnAlts t then setParam ps "angle" (.q 360)
  else if searchAlts halfTurnAlts t then setParam ps "angle" (.q 180)
  else if searchAlts quarterTurnAlts t then setParam ps "angle" (.q 90)
  else
    match extractNumber t "grado".data with
    | some a => setParam ps "angle" (.q a)
    | none => ps

/-- Parameter refinement for a matched `move` rule. -/
def moveParams (t : List Char) (dir : String) : List (String × PVal) :=
  let ps : List (String × PVal) := [("direction", .s dir), ("distance", .q 1)]
  match extractNumber t "metro".data with
  | some d => setParam ps "distance" (.q d)
  | none => ps

/-- Parameter refinement for a matched `look_up`/`look_down` rule. -/
def lookParams (t : List Char) : List (String × PVal) :=
  match extractNumber t "grado".data with
  | some a => [("angle", .q a)]
  | none => [("angle", .q 30)]

/-- The scan of `COMMAND_PATTERNS` in table order over the cleaned segment
text (already stripped and lowercased), first match wins. -/
def matchSingleCore (t : List Char) : Option ActionResult :=
  if t = [] then none
  else if searchAlts stopAlts t then some ⟨"stop", [], "Detenido"⟩
  else if searchAlts sleepAlts t then some ⟨"sleep", [], "Entrando en reposo"⟩
  else if searchAlts wakeAlts t then some ⟨"wake", [], "Despertando"⟩
  else if searchAlts danceAlts t then some ⟨"dance", [], "¡A bailar!"⟩
  else if searchAlts fwdAlts t then
    some ⟨"move", moveParams t "forward", "Avanzando"⟩
  else if searchAlts bwdAlts t then
    some ⟨"move", moveParams t "backward", "Retrocediendo"⟩
  else if searchVerbThen turnVerbs "izquierda".data t then
    some ⟨"turn", turnParams t "left", "Girando a la izquierda"⟩
  else if searchAlts ["izquierda".data] t then
    some ⟨"turn", turnParams t "left", "Girando a la izquierda"⟩
  else if searchVerbThen turnVerbs "derecha".data t then
    some ⟨"turn", turnParams t "right", "Girando a la derecha"⟩
  else if searchAlts ["derecha".data] t then
    some ⟨"turn", turnParams t "right", "Girando a la derecha"⟩
  else if searchAlts turnVerbs t then
    some ⟨"turn", turnParams t "right", "Girando"⟩
  else if searchAlts grabAlts t then some ⟨"grab", [], "Agarrando"⟩
  else if searchAlts releaseAlts t then some ⟨"release", [], "Soltando"⟩
  else if searchVerbThen ["mira".data] "arriba".data t ||
      searchVerbThen ["levanta".data] "cabeza".data t then
    some ⟨"look_up", lookParams t, "Mirando arriba"⟩
  else if searchVerbThen ["mira".data] "abajo".data t ||
      searchVerbThen ["baja".data] "cabeza".data t then
    some ⟨"look_down", lookParams t, "Mirando abajo"⟩
  else none

/-- `_match_single(text)`: strip, lowercase, then scan the pattern table. -/
def matchSingle (text : List Char) : Option ActionResult :=
  matchSingleCore (lowerL (stripL text))

/-! ## `route_command` -/

/-- The per-part matching loop of the compound branch: all parts must
match, otherwise the whole command is rejected. -/
def matchAll : List (List Char) → Option (List ActionResult)
  | [] => some []
  | p :: ps =>
    match matchSingle p with
    | none => none
    | some a =>
      match matchAll ps with
      | none => none
      | some as => some (a :: as)

/-- The local `text_clean` of `route_command`: vocative/courtesy fillers
removed, then stripped. -/
def textCleanOf (text : List Char) : List Char :=
  stripL (subFillers text)

/-- The local `parts` of `route_command`: split on the compound separators,
each part stripped, empty parts discarded. -/
def partsOf (tc : List Char) : List (List Char) :=
  ((splitParts tc).map stripL).filter fun p => !p.isEmpty

/-- `route_command(text)` on a character list. -/
def routeCmdL (text : List Char) : Option RouterResult :=
  if textCleanOf text = [] then none
  else if 1 < (partsOf (textCleanOf text)).length then
    match matchAll (partsOf (textCleanOf text)) with
    | none => none
    | some as => some ⟨true, as⟩
  else
    match matchSingle (textCleanOf text) with
    | some r => some ⟨true, [r]⟩
    | none => none

/-- `route_command(text)`. -/
def route_command (text : String) : Option RouterResult :=
  routeCmdL text.data

/-! ## Incremental sentence segmenter (`InferenceEngine.generate_stream`) -/

/-- The left reasoning delimiter. -/
def thinkOpenL : List Char := "<think>".data

/-- The right reasoning delimiter. -/
def thinkCloseL : List Char := "</think>".data

/-- Earliest position `j ≥ 7` where `</think>` occurs (the lazy `.*?` of
`THINK_PATTERN` picks the first closing delimiter after an opening one). -/
def findClose (s : List Char) : Option Nat :=
  (List.range (s.length + 1)).find? fun j =>
    decide (7 ≤ j) && thinkCloseL.isPrefixOf (s.drop j)

/-- `THINK_PATTERN.sub("", s)`: remove every `<think>.*?</think>` span
(lazy, non-overlapping, scanning left to right); `fuel` is at least the
length of the remaining text. -/
def removeThinkAux : Nat → List Char → List Char
  | 0, s => s
  | _ + 1, [] => []
  | fuel + 1, c :: cs =>
    if thinkOpenL.isPrefixOf (c :: cs) then
      match findClose (c :: cs) with
      | some j => removeThinkAux fuel ((c :: cs).drop (j + 8))
      | none => c :: removeThinkAux fuel cs
    else c :: removeThinkAux fuel cs

/-- `THINK_PATTERN.sub("", s)`. -/
def removeThink (s : List Char) : List Char :=
  removeThinkAux s.length s

/-- The sentence boundary class of `SENTENCE_END = [.!?;。]\s*|\n`. -/
def isBoundCh (c : Char) : Bool :=
  c == '.' || c == '!' || c == '?' || c == ';' || c == '。'

/-- `SENTENCE_END.search(s).end()`: position just past the first boundary
(a class character plus its trailing whitespace run, or a bare newline). -/
def sentEndAux : List Char → Nat → Option Nat
  | [], _ => none
  | c :: cs, i =>
    if isBoundCh c then some (i + 1 + (cs.takeWhile isSpaceCh).length)
    else if c == '\n' then some (i + 1)
    else sentEndAux cs (i + 1)

/-- `SENTENCE_END.search(s).end()` (or `none` when there is no boundary). -/
def sentEnd (s : List Char) : Option Nat :=
  sentEndAux s 0

/-- The mutable state of the streaming loop. -/
structure SegState where
  buf : List Char
  inThink : Bool
deriving DecidableEq, Repr

/-- Boundary check and emission step shared by both non-suppressed paths of
the loop body. -/
def boundaryStep (b : List Char) : SegState × List (List Char) :=
  match sentEnd b with
  | some e =>
    let sentence := stripL (b.take e)
    (⟨b.drop e, false⟩, if sentence.isEmpty then [] else [sentence])
  | none => (⟨b, false⟩, [])

/-- One iteration of the `for chunk in stream` body of `generate_stream`,
fed with one token. -/
def feedToken (st : SegState) (tok : List Char) : SegState × List (List Char) :=
  if tok.isEmpty then (st, [])
  else
    let b1 := st.buf ++ tok
    let t1 := st.inThink || containsSub b1 thinkOpenL
    if t1 then
      if containsSub b1 thinkCloseL then boundaryStep (removeThink b1)
      else (⟨b1, true⟩, [])
    else boundaryStep b1

/-- Run the loop over a whole token list, accumulating emitted sentences. -/
def runSeg : SegState → List (List Char) → SegState × List (List Char)
  | st, [] => (st, [])
  | st, t :: ts =>
    let r := feedToken st t
    let rest := runSeg r.1 ts
    (rest.1, r.2 ++ rest.2)

/-- The final flush after stream exhaustion. -/
def flushSeg (st : SegState) : List (List Char) :=
  let remaining := stripL st.buf
  if !remaining.isEmpty && !st.inThink then [remaining] else []

/-- The sentence stream produced by `generate_stream` for a given token
stream (the LLM call itself is the external collaborator; the segmentation
logic is what is modelled). -/
def segmentStream (ts : List String) : List String :=
  ((runSeg ⟨[], false⟩ (ts.map String.data)).2 ++
    flushSeg (runSeg ⟨[], false⟩ (ts.map String.data)).1).map String.mk

/-! ## Conversation history (`ConversationManager`) -/

/-- One `{role, content}` turn. -/
structure Msg where
  role : String
  content : String
deriving DecidableEq, Repr

/-- `deque(maxlen = m).append(x)`: drop from the left when over capacity. -/
def pushMax (m : Nat) (l : List Msg) (x : Msg) : List Msg :=
  (l ++ [x]).drop ((l.length + 1) - m)

/-- `add_exchange(user_text, assistant_text)` on the in-memory history of a
manager with `max_turns` turns (the deque holds `max_turns * 2` messages;
persistence is the external collaborator). -/
def add_exchange (maxTurns : Nat) (h : List Msg) (u a : String) : List Msg :=
  pushMax (maxTurns * 2) (pushMax (maxTurns * 2) h ⟨"user", u⟩)
    ⟨"assistant", a⟩

/-- A history-mutating operation of the manager. -/
inductive HistOp where
  | exchange (u a : String)
  | clear
deriving DecidableEq, Repr

/-- Apply one operation. -/
def applyOp (maxTurns : Nat) (h : List Msg) : HistOp → List Msg
  | .exchange u a => add_exchange maxTurns h u a
  | .clear => []

/-- Apply a sequence of operations. -/
def runOps (maxTurns : Nat) (h : List Msg) (ops : List HistOp) : List Msg :=
  ops.foldl (applyOp maxTurns) h

/-! ## Shared lemmas -/

/-- The compound matching loop fails exactly when some part fails. -/
theorem matchAll_eq_none_iff (ps : List (List Char)) :
    matchAll ps = none ↔ ∃ p ∈ ps, matchSingle p = none := by
  induction ps with
  | nil => simp [matchAll]
  | cons p ps ih =>
    cases h : matchSingle p with
    | none =>
      simp only [matchAll, h]
      exact iff_of_true trivial ⟨p, List.mem_cons_self p ps, h⟩
    | some a =>
      cases h2 : matchAll ps with
      | none =>
        simp only [matchAll, h, h2]
        refine iff_of_true trivial ?_
        rcases ih.mp h2 with ⟨q, hq, hq2⟩
        exact ⟨q, List.mem_cons_of_mem _ hq, hq2⟩
      | some as =>
        simp only [matchAll, h, h2]
        refine iff_of_false (by simp) ?_
        rintro ⟨q, hq, hq2⟩
        rcases List.mem_cons.mp hq with rfl | hq'
        · rw [h] at hq2; exact Option.noConfusion hq2
        · have h3 := ih.mpr ⟨q, hq', hq2⟩
          rw [h3] at h2; exact Option.noConfusion h2

/-! ## Claims -/

/-- Claim C1, counterexample: the input "avanza y para" contains both a
movement keyword and a stop keyword, but `route_command` does not resolve
it to a single stop action — the compound splitter puts the two keywords in
different segments and the result is a move action followed by a stop
action. -/
theorem c1_counterexample :
    (route_command "avanza y para").map
      (fun r => r.actions.map ActionResult.action) = some ["move", "stop"] ∧
    (route_command "avanza y para").map
      (fun r => r.actions.map ActionResult.action) ≠ some ["stop"] := by
  constructor
  · decide
  · decide

/-- Claim C1 (amended): for every input whose filler-stripped text forms a
single conjunct segment (the compound splitter yields at most one non-empty
part) and contains both a stop keyword and a movement keyword, the stop
rule wins — `route_command` resolves to a single stop action regardless of
keyword positions.  (When the keywords fall in different conjunct-separated
segments the router instead returns one action per segment.) -/
theorem c1_stop_wins_in_single_segment (t : String)
    (hstop : searchAlts stopAlts (lowerL (stripL (textCleanOf t.data))) = true)
    (_hmove : searchAlts fwdAlts (lowerL (stripL (textCleanOf t.data))) = true ∨
      searchAlts bwdAlts (lowerL (stripL (textCleanOf t.data))) = true)
    (hsingle : ¬ 1 < (partsOf (textCleanOf t.data)).length) :
    route_command t = some ⟨true, [⟨"stop", [], "Detenido"⟩]⟩ := by
  unfold route_command routeCmdL
  have h0 : ¬ textCleanOf t.data = [] := by
    intro h; rw [h] at hstop; revert hstop; decide
  rw [if_neg h0, if_neg hsingle]
  unfold matchSingle
  have hu : ¬ lowerL (stripL (textCleanOf t.data)) = [] := by
    intro h; rw [h] at hstop; revert hstop; decide
  unfold matchSingleCore
  rw [if_neg hu, if_pos hstop]

/-- Claim C1, witness: "para avanza" is a single segment containing a stop
keyword and a movement keyword and resolves to the single stop action. -/
theorem c1_witness :
    route_command "para avanza" = some ⟨true, [⟨"stop", [], "Detenido"⟩]⟩ :=
  c1_stop_wins_in_single_segment "para avanza" (by decide)
    (Or.inl (by decide)) (by decide)

/-- Claim C3: for every compound utterance (two or more non-empty conjunct
parts), if any part fails to match, `route_command` rejects the whole
utterance with `none`; a partial action list is never returned. -/
theorem c3_compound_all_or_nothing (t : String)
    (hlen : 1 < (partsOf (textCleanOf t.data)).length)
    (hfail : ∃ p ∈ partsOf (textCleanOf t.data), matchSingle p = none) :
    route_command t = none := by
  unfold route_command routeCmdL
  have h0 : ¬ textCleanOf t.data = [] := by
    intro h; rw [h] at hlen; revert hlen; decide
  rw [if_neg h0, if_pos hlen, (matchAll_eq_none_iff _).mpr hfail]

/-- Claim C3, witness: "avanza y canta una canción" splits into two parts
of which the second matches nothing, so the whole utterance is rejected. -/
theorem c3_witness : route_command "avanza y canta una canción" = none :=
  c3_compound_all_or_nothing "avanza y canta una canción" (by decide)
    (by decide)

/-- Claim C5: the special turn phrases do not behave as specified — no turn
pattern matches "da una vuelta completa" or "da media vuelta" (the table
only knows the literal verbs and "da la vuelta"/"date la vuelta"), so
`route_command` returns `none` on both, while the spec and the repository's
own tests require turn actions with angles 360 and 180. -/
theorem c5_special_turn_phrases_unmatched :
    route_command "da una vuelta completa" = none ∧
    route_command "da media vuelta" = none := by
  constructor
  · decide
  · decide

/-- Claim C6: word-form numeric quantities are not extracted — the lazy
capture group of `(\w[\w\s]*?)\s*metros?` starts at the first word
character of the text, so the captured phrase is "avanza dos"/"avanza
medio", which is not in the word-number table and contains no digits; the
distance silently stays at the default 1 instead of the specified 2 and
0.5. -/
theorem c6_word_number_distance_lost :
    route_command "avanza medio metro" = some ⟨true,
      [⟨"move", [("direction", .s "forward"), ("distance", .q 1)],
        "Avanzando"⟩]⟩ ∧
    route_command "avanza dos metros y gira a la derecha" = some ⟨true,
      [⟨"move", [("direction", .s "forward"), ("distance", .q 1)],
        "Avanzando"⟩,
       ⟨"turn", [("direction", .s "right"), ("angle", .q 90)],
        "Girando a la derecha"⟩]⟩ := by
  constructor
  · decide
  · decide

/-- Claim C2: the segmenter does leak reasoning-block text — when a second
`<think>` opens in the same buffer after a completed block, the cleanup
removes only the completed block, clears the suppression flag, and the
boundary check then emits text lying between the second `<think>` and its
matching `</think>` (delimiters included). -/
theorem c2_reasoning_block_leak :
    segmentStream ["<think>a</think><think>secret.", "x</think>Hola."] =
      ["<think>secret.", "x</think>Hola."] := by
  decide

/-- Claim C7: `route_command` is total (the embedding is a total function,
mirroring that the source never raises), returns `none` on the empty, the
whitespace-only and the unrecognised question inputs, and in general
returns `none` exactly when no deterministic rule resolves the utterance:
the cleaned text is empty, or some part of a compound command fails to
match, or the single segment matches no pattern. -/
theorem c7_none_exactly_when_unresolved :
    route_command "" = none ∧ route_command "   " = none ∧
    route_command "cuál es la capital de Francia" = none ∧
    ∀ t : String, (route_command t = none ↔
      (textCleanOf t.data = [] ∨
       (1 < (partsOf (textCleanOf t.data)).length ∧
        ∃ p ∈ partsOf (textCleanOf t.data), matchSingle p = none) ∨
       (¬ 1 < (partsOf (textCleanOf t.data)).length ∧
        matchSingle (textCleanOf t.data) = none))) := by
  refine ⟨by decide, by decide, by decide, fun t => ?_⟩
  unfold route_command routeCmdL
  by_cases h0 : textCleanOf t.data = []
  · rw [if_pos h0]
    exact iff_of_true rfl (Or.inl h0)
  · rw [if_neg h0]
    by_cases hl : 1 < (partsOf (textCleanOf t.data)).length
    · rw [if_pos hl]
      cases hm : matchAll (partsOf (textCleanOf t.data)) with
      | none =>
        exact iff_of_true rfl
          (Or.inr (Or.inl ⟨hl, (matchAll_eq_none_iff _).mp hm⟩))
      | some as =>
        refine iff_of_false (by simp) ?_
        rintro (h | ⟨_, hfail⟩ | ⟨hnl, _⟩)
        · exact h0 h
        · rw [(matchAll_eq_none_iff _).mpr hfail] at hm
          exact Option.noConfusion hm
        · exact hnl hl
    · rw [if_neg hl]
      cases hm : matchSingle (textCleanOf t.data) with
      | none => exact iff_of_true rfl (Or.inr (Or.inr ⟨hl, rfl⟩))
      | some r =>
        refine iff_of_false (by simp) ?_
        rintro (h | ⟨hl2, _⟩ | ⟨_, hm2⟩)
        · exact h0 h
        · exact hl hl2
        · exact Option.noConfusion hm2

/-- The length of a bounded append. -/
theorem pushMax_length (m : Nat) (l : List Msg) (x : Msg) :
    (pushMax m l x).length = min (l.length + 1) m := by
  simp [pushMax]
  omega

/-- A bounded append to a list one short of two over capacity evicts
exactly the oldest element. -/
theorem pushMax_evict (m : Nat) (l : List Msg) (x : Msg) (hl : 1 ≤ l.length)
    (h : l.length + 1 - m = 1) : pushMax m l x = l.drop 1 ++ [x] := by
  unfold pushMax
  rw [h]
  exact List.drop_append_of_le_length hl

/-- Claim C9: the conversation history is a bounded sliding window — after
any sequence of `add_exchange` and `clear` operations the history holds at
most `max_turns` user+assistant pairs (`max_turns * 2` messages); below the
bound `add_exchange` appends exactly one user turn followed by one
assistant turn; at the bound the oldest pair is evicted first and the most
recent turns are preserved in order. -/
theorem c9_sliding_window (m : Nat) :
    (∀ ops : List HistOp, ∀ h : List Msg, h.length ≤ m * 2 →
      (runOps m h ops).length ≤ m * 2) ∧
    (∀ (h : List Msg) (u a : String), h.length + 2 ≤ m * 2 →
      add_exchange m h u a = h ++ [⟨"user", u⟩, ⟨"assistant", a⟩]) ∧
    (∀ (h : List Msg) (u a : String), h.length = m * 2 → 1 ≤ m →
      add_exchange m h u a = h.drop 2 ++ [⟨"user", u⟩, ⟨"assistant", a⟩]) := by
  refine ⟨?_, ?_, ?_⟩
  · intro ops
    induction ops with
    | nil => intro h hh; simpa [runOps] using hh
    | cons op ops ih =>
      intro h hh
      have hstep : (applyOp m h op).length ≤ m * 2 := by
        cases op with
        | exchange u a =>
          simp only [applyOp, add_exchange, pushMax_length]
          omega
        | clear => simp [applyOp]
      simpa [runOps, List.foldl_cons] using ih (applyOp m h op) hstep
  · intro h u a hh
    unfold add_exchange pushMax
    have h1 : h.length + 1 - m * 2 = 0 := by omega
    rw [h1, List.drop_zero]
    have h2 : (h ++ [(⟨"user", u⟩ : Msg)]).length + 1 - m * 2 = 0 := by
      simp only [List.length_append, List.length_cons, List.length_nil]
      omega
    rw [h2, List.drop_zero, List.append_assoc]
    rfl
  · intro h u a hh hm
    have e1 : pushMax (m * 2) h ⟨"user", u⟩ = h.drop 1 ++ [⟨"user", u⟩] :=
      pushMax_evict _ _ _ (by omega) (by omega)
    have e2 : add_exchange m h u a =
        (h.drop 1 ++ [(⟨"user", u⟩ : Msg)]).drop 1 ++ [⟨"assistant", a⟩] := by
      unfold add_exchange
      rw [e1]
      exact pushMax_evict _ _ _
        (by simp only [List.length_append, List.length_drop,
          List.length_cons, List.length_nil]; omega)
        (by simp only [List.length_append, List.length_drop,
          List.length_cons, List.length_nil]; omega)
    rw [e2, List.drop_append_of_le_length
      (by simp only [List.length_drop]; omega)]
    rw [List.drop_drop, List.append_assoc]
    norm_num

/-- A text without boundary-class characters and newlines has no sentence
boundary. -/
theorem sentEndAux_eq_none (s : List Char) (i : Nat)
    (h : ∀ c ∈ s, isBoundCh c = false ∧ c ≠ '\n') :
    sentEndAux s i = none := by
  induction s generalizing i with
  | nil => rfl
  | cons c cs ih =>
    have hc := h c (List.mem_cons_self c cs)
    simp only [sentEndAux, hc.1, Bool.false_eq_true, if_false]
    rw [if_neg (by simpa using hc.2)]
    exact ih _ fun d hd => h d (List.mem_cons_of_mem _ hd)

/-- Substring occurrence is preserved by appending on the right. -/
theorem containsSub_mono (a b sub : List Char)
    (h : containsSub a sub = true) : containsSub (a ++ b) sub = true := by
  simp only [containsSub, List.any_eq_true, List.mem_range] at h ⊢
  obtain ⟨i, hi, hp⟩ := h
  refine ⟨i, by simp only [List.length_append]; omega, ?_⟩
  rw [List.drop_append_of_le_length (by omega)]
  rw [List.isPrefixOf_iff_prefix] at hp ⊢
  exact hp.trans (List.prefix_append _ _)

/-- On a stream whose total text has no sentence boundary and no reasoning
delimiter, the loop only accumulates: no sentence is emitted and the buffer
ends up holding the whole text. -/
theorem runSeg_inert (ts : List (List Char)) : ∀ buf : List Char,
    containsSub (buf ++ ts.flatten) thinkOpenL = false →
    (∀ c ∈ buf ++ ts.flatten, isBoundCh c = false ∧ c ≠ '\n') →
    runSeg ⟨buf, false⟩ ts = (⟨buf ++ ts.flatten, false⟩, []) := by
  induction ts with
  | nil => intro buf _ _; simp [runSeg]
  | cons t ts ih =>
    intro buf hnt hnb
    rw [List.flatten_cons, ← List.append_assoc] at hnt hnb
    by_cases ht : t.isEmpty
    · have ht' : t = [] := List.isEmpty_iff.mp ht
      subst ht'
      rw [List.append_nil] at hnt hnb
      simp only [runSeg, feedToken, List.isEmpty_nil, if_true]
      rw [ih buf hnt hnb]
      simp [List.flatten_cons]
    · have hb1 : containsSub (buf ++ t) thinkOpenL = false := by
        cases hcb : containsSub (buf ++ t) thinkOpenL with
        | false => rfl
        | true => rw [containsSub_mono _ ts.flatten _ hcb] at hnt; exact hnt
      have hse : sentEnd (buf ++ t) = none := by
        apply sentEndAux_eq_none
        intro c hc
        exact hnb c (List.mem_append.mpr (Or.inl hc))
      have hfeed : feedToken ⟨buf, false⟩ t = (⟨buf ++ t, false⟩, []) := by
        simp only [feedToken, ht, if_false, hb1, Bool.false_or,
          Bool.false_eq_true, boundaryStep, hse]
      simp only [runSeg, hfeed]
      rw [ih (buf ++ t) hnt hnb]
      simp [List.flatten_cons, List.append_assoc]

/-- Claim C8: a token stream containing no sentence-boundary character
(none of `. ! ? ;`, the full-width variant, or a newline) and no reasoning
delimiter, whose concatenation is non-empty after trimming, yields exactly
one final sentence equal to the trimmed concatenation, emitted at stream
exhaustion. -/
theorem c8_flush_boundaryless_stream (ts : List String)
    (hnb : ∀ c ∈ (ts.map String.data).flatten,
      isBoundCh c = false ∧ c ≠ '\n')
    (hnt : containsSub (ts.map String.data).flatten thinkOpenL = false)
    (hne : stripL (ts.map String.data).flatten ≠ []) :
    segmentStream ts = [String.mk (stripL (ts.map String.data).flatten)] := by
  unfold segmentStream
  rw [runSeg_inert (ts.map String.data) []
    (by rwa [List.nil_append]) (by rwa [List.nil_append])]
  simp only [List.nil_append, flushSeg]
  rw [if_pos (by simp [List.isEmpty_iff, hne])]
  rfl

/-- Claim C8, witness: the two tokens "Hola " and "amigo" contain no
boundary and no delimiter and flush to the single sentence "Hola amigo". -/
theorem c8_witness : segmentStream ["Hola ", "amigo"] = ["Hola amigo"] := by
  rw [c8_flush_boundaryless_stream ["Hola ", "amigo"]
    (by decide) (by decide) (by decide)]
  decide

/-- The streamed text of the C4 scenario. -/
def tc4 : List Char := "Hola. Adiós".data

/-- Reachability invariant for streaming any tokenisation of `tc4`: before
the boundary character arrives (`n ≤ 4`) the buffer holds the consumed
prefix and nothing was emitted; once the token whose arrival brings the
full stop into the buffer has been processed (`n ≥ 5`), exactly "Hola." has
been emitted and the buffer holds the consumed remainder (starting after
the full stop, or after the following space when it had already been
consumed in the same token). -/
def c4Inv (n : Nat) (st : SegState) (out : List (List Char)) : Prop :=
  (n ≤ 4 ∧ st = ⟨tc4.take n, false⟩ ∧ out = []) ∨
  (5 ≤ n ∧ out = ["Hola.".data] ∧
    (st = ⟨(tc4.take n).drop 5, false⟩ ∨
     (6 ≤ n ∧ st = ⟨(tc4.take n).drop 6, false⟩)))

instance c4InvDecidable (n : Nat) (st : SegState) (out : List (List Char)) :
    Decidable (c4Inv n st out) := by
  unfold c4Inv
  infer_instance

/-- One-token preservation of the invariant from a pre-boundary state,
checked over all consumed positions `n ≤ m ≤ 11` of the text. -/
theorem c4_stepA : ∀ n, n < 12 → ∀ m, m < 12 → n ≤ m → n ≤ 4 →
    c4Inv m (feedToken ⟨tc4.take n, false⟩ ((tc4.drop n).take (m - n))).1
      (feedToken ⟨tc4.take n, false⟩ ((tc4.drop n).take (m - n))).2 := by
  decide

/-- One-token preservation from a post-boundary state whose buffer starts
right after the full stop. -/
theorem c4_stepB : ∀ n, n < 12 → ∀ m, m < 12 → n ≤ m → 5 ≤ n →
    c4Inv m
      (feedToken ⟨(tc4.take n).drop 5, false⟩ ((tc4.drop n).take (m - n))).1
      ("Hola.".data ::
        (feedToken ⟨(tc4.take n).drop 5, false⟩
          ((tc4.drop n).take (m - n))).2) := by
  decide

/-- One-token preservation from a post-boundary state whose buffer starts
after the space following the full stop. -/
theorem c4_stepC : ∀ n, n < 12 → ∀ m, m < 12 → n ≤ m → 6 ≤ n →
    c4Inv m
      (feedToken ⟨(tc4.take n).drop 6, false⟩ ((tc4.drop n).take (m - n))).1
      ("Hola.".data ::
        (feedToken ⟨(tc4.take n).drop 6, false⟩
          ((tc4.drop n).take (m - n))).2) := by
  decide

/-- Running the loop over any remaining tokenisation of the text preserves
the invariant up to exhaustion. -/
theorem c4_run (ts : List (List Char)) : ∀ n st out, c4Inv n st out →
    ts.flatten = tc4.drop n → n ≤ 11 →
    c4Inv 11 (runSeg st ts).1 (out ++ (runSeg st ts).2) := by
  induction ts with
  | nil =>
    intro n st out hinv hf hn
    have h1 := congrArg List.length hf
    simp only [List.flatten_nil, List.length_nil, List.length_drop] at h1
    have hl : tc4.length = 11 := by decide
    have : n = 11 := by omega
    subst this
    simpa [runSeg] using hinv
  | cons t ts ih =>
    intro n st out hinv hf hn
    rw [List.flatten_cons] at hf
    have hlen : t.length + ts.flatten.length = 11 - n := by
      have h1 := congrArg List.length hf
      simp only [List.length_append, List.length_drop] at h1
      have hl : tc4.length = 11 := by decide
      omega
    have ht : t = (tc4.drop n).take (n + t.length - n) := by
      rw [Nat.add_sub_cancel_left, ← hf]
      exact (List.take_left t ts.flatten).symm
    have hts : ts.flatten = tc4.drop (n + t.length) := by
      have h2 : ts.flatten = (tc4.drop n).drop t.length := by
        rw [← hf]
        exact (List.drop_left t ts.flatten).symm
      rw [h2, List.drop_drop, Nat.add_comm]
    have hm : n + t.length ≤ 11 := by omega
    simp only [runSeg]
    rcases hinv with ⟨hn4, hst, hout⟩ | ⟨hn5, hout, hst | ⟨hn6, hst⟩⟩
    · subst hst; subst hout
      have hstep := c4_stepA n (by omega) (n + t.length) (by omega) (by omega) hn4
      rw [← ht] at hstep
      have := ih (n + t.length) _ _ hstep hts hm
      simpa [List.append_assoc] using this
    · subst hst; subst hout
      have hstep := c4_stepB n (by omega) (n + t.length) (by omega) (by omega) hn5
      rw [← ht] at hstep
      have := ih (n + t.length) _ _ hstep hts hm
      simpa [List.append_assoc] using this
    · subst hst; subst hout
      have hstep := c4_stepC n (by omega) (n + t.length) (by omega) (by omega) hn6
      rw [← ht] at hstep
      have := ih (n + t.length) _ _ hstep hts hm
      simpa [List.append_assoc] using this

/-- Claim C4: every token stream whose concatenated tokens spell
"Hola. Adiós" yields exactly the two sentences "Hola." then "Adiós", in
generation order, each emitted once. -/
theorem c4_two_sentences (ts : List String)
    (h : (ts.map String.data).flatten = "Hola. Adiós".data) :
    segmentStream ts = ["Hola.", "Adiós"] := by
  unfold segmentStream
  have h0 : c4Inv 0 ⟨[], false⟩ [] := by
    left
    exact ⟨by omega, rfl, rfl⟩
  have hrun := c4_run (ts.map String.data) 0 ⟨[], false⟩ [] h0
    (by simpa [tc4] using h) (by omega)
  rcases hrun with ⟨h11, _, _⟩ | ⟨_, hout, hst | ⟨_, hst⟩⟩
  · omega
  · rw [List.nil_append] at hout
    rw [hout, hst]
    decide
  · rw [List.nil_append] at hout
    rw [hout, hst]
    decide

/-- Claim C4, witness: the single-token stream. -/
theorem c4_witness : segmentStream ["Hola. Adiós"] = ["Hola.", "Adiós"] :=
  c4_two_sentences ["Hola. Adiós"] (by decide)

/-- Claim C9, witness: with `max_turns = 2`, three exchanges stay within
four messages; below the bound an exchange appends the pair; with
`max_turns = 1` and a full history the old pair is evicted. -/
theorem c9_witness :
    (runOps 2 [] [.exchange "u1" "a1", .exchange "u2" "a2",
      .exchange "u3" "a3"]).length ≤ 2 * 2 ∧
    add_exchange 2 [⟨"user", "u0"⟩, ⟨"assistant", "a0"⟩] "u1" "a1" =
      [⟨"user", "u0"⟩, ⟨"assistant", "a0"⟩, ⟨"user", "u1"⟩,
       ⟨"assistant", "a1"⟩] ∧
    add_exchange 1 [⟨"user", "u0"⟩, ⟨"assistant", "a0"⟩] "u1" "a1" =
      [⟨"user", "u1"⟩, ⟨"assistant", "a1"⟩] :=
  ⟨(c9_sliding_window 2).1 _ [] (by decide),
   (c9_sliding_window 2).2.1 _ "u1" "a1" (by decide),
   (c9_sliding_window 1).2.2 _ "u1" "a1" (by decide) (by decide)⟩


/-! ## Case-insensitivity (claim C10) -/

/-- The lowercase values of the folding table are fixed points of the
fold. -/
theorem sLower_vals_fixed : ∀ p ∈ lowerPairs, sLower p.2 = p.2 := by decide

/-- Case folding preserves word-ness on the table. -/
theorem sLower_vals_word : ∀ p ∈ lowerPairs,
    isWordChar p.2 = isWordChar p.1 := by decide

/-- No table entry is whitespace. -/
theorem sLower_vals_space : ∀ p ∈ lowerPairs,
    isSpaceCh p.2 = isSpaceCh p.1 := by decide

/-- Either a character is untouched by the fold, or it is a table key. -/
theorem sLower_cases (c : Char) :
    sLower c = c ∨ ∃ p ∈ lowerPairs, p.1 = c ∧ sLower c = p.2 := by
  cases h : lowerPairs.find? (fun p => p.1 == c) with
  | none => left; unfold sLower; rw [h]
  | some p =>
    right
    have hpred := List.find?_some h
    have hc : (p.1 == c) = true := hpred
    refine ⟨p, List.mem_of_find?_eq_some h, eq_of_beq hc, ?_⟩
    unfold sLower; rw [h]

/-- Case folding is idempotent. -/
theorem sLower_idem (c : Char) : sLower (sLower c) = sLower c := by
  rcases sLower_cases c with h | ⟨p, hp, _, h⟩
  · rw [h]; exact h
  · rw [h]; exact sLower_vals_fixed p hp

/-- Case folding preserves word-ness. -/
theorem isWordChar_sLower (c : Char) :
    isWordChar (sLower c) = isWordChar c := by
  rcases sLower_cases c with h | ⟨p, hp, hc, h⟩
  · rw [h]
  · rw [h, ← hc]; exact sLower_vals_word p hp

/-- Case folding preserves whitespace-ness. -/
theorem isSpaceCh_sLower (c : Char) : isSpaceCh (sLower c) = isSpaceCh c := by
  rcases sLower_cases c with h | ⟨p, hp, hc, h⟩
  · rw [h]
  · rw [h, ← hc]; exact sLower_vals_space p hp

theorem lowerL_cons (c : Char) (cs : List Char) :
    lowerL (c :: cs) = sLower c :: lowerL cs := rfl

theorem lowerL_length (s : List Char) : (lowerL s).length = s.length :=
  List.length_map s sLower

theorem lowerL_idem (s : List Char) : lowerL (lowerL s) = lowerL s := by
  unfold lowerL
  rw [List.map_map]
  exact List.map_congr_left fun c _ => sLower_idem c

theorem lowerL_isEmpty (s : List Char) : (lowerL s).isEmpty = s.isEmpty := by
  cases s with
  | nil => rfl
  | cons c cs => rfl

/-- The whitespace predicate absorbs the fold. -/
theorem isSpaceCh_comp_sLower : (isSpaceCh ∘ sLower) = isSpaceCh :=
  funext isSpaceCh_sLower

theorem stripL_lowerL (s : List Char) :
    stripL (lowerL s) = lowerL (stripL s) := by
  unfold stripL lowerL
  rw [List.dropWhile_map, isSpaceCh_comp_sLower, ← List.map_reverse,
    List.dropWhile_map, isSpaceCh_comp_sLower, ← List.map_reverse]

theorem ciMatch_lowerL (alt : List Char) : ∀ s : List Char,
    ciMatch alt (lowerL s) = (ciMatch alt s).map lowerL := by
  induction alt with
  | nil => intro s; rfl
  | cons a as ih =>
    intro s
    cases s with
    | nil => rfl
    | cons c cs =>
      rw [lowerL_cons]
      simp only [ciMatch, sLower_idem]
      by_cases h : (sLower c == a) = true
      · rw [if_pos h, if_pos h]; exact ih cs
      · rw [if_neg h, if_neg h]; rfl

theorem headW_lowerL (s : List Char) : headW (lowerL s) = headW s := by
  cases s with
  | nil => rfl
  | cons c cs => simp only [lowerL_cons, headW]; exact isWordChar_sLower c

theorem tryAlts_lowerL (alts : List (List Char)) (prevW : Bool)
    (s : List Char) : tryAlts alts prevW (lowerL s) =
      (tryAlts alts prevW s).map fun r => (r.1, lowerL r.2) := by
  induction alts with
  | nil => rfl
  | cons alt rest ih =>
    simp only [tryAlts, ciMatch_lowerL alt s]
    cases h : ciMatch alt s with
    | none => exact ih
    | some r =>
      simp only [Option.map_some', headW_lowerL]
      by_cases hb : ((prevW != altHeadW alt) && (altLastW alt != headW r)) = true
      · rw [if_pos hb, if_pos hb]; rfl
      · rw [if_neg hb, if_neg hb]; exact ih

theorem subFillersAux_lowerL (fuel : Nat) : ∀ (prevW : Bool) (s : List Char),
    subFillersAux fuel prevW (lowerL s) =
      lowerL (subFillersAux fuel prevW s) := by
  induction fuel with
  | zero => intro _ s; rfl
  | succ f ih =>
    intro prevW s
    cases s with
    | nil => rfl
    | cons c cs =>
      rw [lowerL_cons]
      simp only [subFillersAux]
      rw [← lowerL_cons, tryAlts_lowerL]
      cases h : tryAlts fillerAlts prevW (c :: cs) with
      | none =>
        simp only [Option.map_none']
        rw [lowerL_cons, isWordChar_sLower, ih (isWordChar c) cs]
      | some wr =>
        obtain ⟨w, r2⟩ := wr
        simp only [Option.map_some']
        exact ih w r2

theorem subFillers_lowerL (s : List Char) :
    subFillers (lowerL s) = lowerL (subFillers s) := by
  unfold subFillers
  rw [lowerL_length]
  exact subFillersAux_lowerL s.length false s


theorem takeWhileSp_lowerL (s : List Char) :
    (lowerL s).takeWhile isSpaceCh = lowerL (s.takeWhile isSpaceCh) := by
  unfold lowerL
  rw [List.takeWhile_map, isSpaceCh_comp_sLower]

theorem dropWhileSp_lowerL (s : List Char) :
    (lowerL s).dropWhile isSpaceCh = lowerL (s.dropWhile isSpaceCh) := by
  unfold lowerL
  rw [List.dropWhile_map, isSpaceCh_comp_sLower]

theorem lowerL_reverse (s : List Char) :
    (lowerL s).reverse = lowerL s.reverse := by
  unfold lowerL
  rw [List.map_reverse]

theorem lowerL_append (a b : List Char) :
    lowerL (a ++ b) = lowerL a ++ lowerL b := by
  unfold lowerL
  exact List.map_append sLower a b

/-- The comma is untouched by case folding. -/
theorem sLower_comma (c : Char) : (sLower c == ',') = (c == ',') := by
  rcases sLower_cases c with h | ⟨p, hp, hc, h⟩
  · rw [h]
  · have hno : ∀ q ∈ lowerPairs,
        (q.2 == ',') = false ∧ (q.1 == ',') = false := by decide
    rw [h, ← hc, (hno p hp).1, (hno p hp).2]

theorem optLuego_lowerL (r : List Char) :
    optLuego (lowerL r) = lowerL (optLuego r) := by
  unfold optLuego
  rw [ciMatch_lowerL]
  cases h : ciMatch "luego".data r with
  | some r2 =>
    simp only [Option.map_some']
    rw [takeWhileSp_lowerL, lowerL_length]
    by_cases h2 : (r2.takeWhile isSpaceCh).length ≠ 0
    · rw [if_pos h2, if_pos h2, dropWhileSp_lowerL]
    · rw [if_neg h2, if_neg h2, ciMatch_lowerL]
      cases h3 : ciMatch "después".data r with
      | some r3 =>
        simp only [Option.map_some']
        rw [takeWhileSp_lowerL, lowerL_length]
        by_cases h4 : (r3.takeWhile isSpaceCh).length ≠ 0
        · rw [if_pos h4, if_pos h4, dropWhileSp_lowerL]
        · rw [if_neg h4, if_neg h4]
      | none => simp only [Option.map_none']
  | none =>
    simp only [Option.map_none']
    rw [ciMatch_lowerL]
    cases h3 : ciMatch "después".data r with
    | some r3 =>
      simp only [Option.map_some']
      rw [takeWhileSp_lowerL, lowerL_length]
      by_cases h4 : (r3.takeWhile isSpaceCh).length ≠ 0
      · rw [if_pos h4, if_pos h4, dropWhileSp_lowerL]
      · rw [if_neg h4, if_neg h4]
    | none => simp only [Option.map_none']

theorem matchSep_lowerL (s : List Char) :
    matchSep (lowerL s) = (matchSep s).map lowerL := by
  unfold matchSep
  rw [takeWhileSp_lowerL, lowerL_length]
  by_cases h0 : (s.takeWhile isSpaceCh).length = 0
  · rw [if_pos h0, if_pos h0]; rfl
  · rw [if_neg h0, if_neg h0, dropWhileSp_lowerL]
    cases hq : s.dropWhile isSpaceCh with
    | nil => rfl
    | cons c cs =>
      rw [lowerL_cons]
      simp only [sLower_idem]
      by_cases hy : (sLower c == 'y') = true
      · rw [if_pos hy, if_pos hy, takeWhileSp_lowerL, lowerL_length]
        by_cases h1 : (cs.takeWhile isSpaceCh).length = 0
        · rw [if_pos h1, if_pos h1]; rfl
        · rw [if_neg h1, if_neg h1, dropWhileSp_lowerL, optLuego_lowerL]; rfl
      · rw [if_neg hy, if_neg hy, sLower_comma]
        by_cases hc : (c == ',') = true
        · rw [if_pos hc, if_pos hc, dropWhileSp_lowerL, optLuego_lowerL]; rfl
        · rw [if_neg hc, if_neg hc, ← lowerL_cons, ciMatch_lowerL]
          cases h2 : ciMatch "luego".data (c :: cs) with
          | some r2 =>
            simp only [Option.map_some']
            rw [takeWhileSp_lowerL, lowerL_length]
            by_cases h3 : (r2.takeWhile isSpaceCh).length ≠ 0
            · rw [if_pos h3, if_pos h3, dropWhileSp_lowerL]; rfl
            · rw [if_neg h3, if_neg h3]; rfl
          | none =>
            simp only [Option.map_none']
            rw [ciMatch_lowerL]
            cases h4 : ciMatch "después".data (c :: cs) with
            | some r3 =>
              simp only [Option.map_some']
              rw [takeWhileSp_lowerL, lowerL_length]
              by_cases h5 : (r3.takeWhile isSpaceCh).length ≠ 0
              · rw [if_pos h5, if_pos h5, dropWhileSp_lowerL]; rfl
              · rw [if_neg h5, if_neg h5]; rfl
            | none => rfl

theorem splitAux_lowerL (fuel : Nat) : ∀ (acc s : List Char),
    splitAux fuel (lowerL acc) (lowerL s) = (splitAux fuel acc s).map lowerL := by
  induction fuel with
  | zero =>
    intro acc s
    simp only [splitAux, List.map_cons, List.map_nil, lowerL_append,
      lowerL_reverse]
  | succ f ih =>
    intro acc s
    cases s with
    | nil => simp only [splitAux, lowerL_reverse, List.map_cons, List.map_nil]
    | cons c cs =>
      rw [lowerL_cons]
      simp only [splitAux]
      rw [← lowerL_cons, matchSep_lowerL]
      cases h : matchSep (c :: cs) with
      | none =>
        simp only [Option.map_none']
        exact ih (c :: acc) cs
      | some rest =>
        simp only [Option.map_some', List.map_cons]
        rw [lowerL_reverse]
        exact congrArg (List.cons _) (ih [] rest)

theorem splitParts_lowerL (s : List Char) :
    splitParts (lowerL s) = (splitParts s).map lowerL := by
  unfold splitParts
  rw [lowerL_length]
  exact splitAux_lowerL s.length [] s

theorem matchSingle_lowerL (p : List Char) :
    matchSingle (lowerL p) = matchSingle p := by
  unfold matchSingle
  rw [stripL_lowerL, lowerL_idem]

theorem matchAll_lowerL (ps : List (List Char)) :
    matchAll (ps.map lowerL) = matchAll ps := by
  induction ps with
  | nil => rfl
  | cons p ps ih =>
    simp only [List.map_cons, matchAll, matchSingle_lowerL, ih]

theorem partsOf_lowerL (tc : List Char) :
    partsOf (lowerL tc) = (partsOf tc).map lowerL := by
  unfold partsOf
  rw [splitParts_lowerL, List.map_map]
  have h1 : (stripL ∘ lowerL) = (lowerL ∘ stripL) := funext stripL_lowerL
  rw [h1, ← List.map_map, List.filter_map]
  have h2 : ((fun p : List Char => !p.isEmpty) ∘ lowerL) =
      (fun p : List Char => !p.isEmpty) := by
    funext x
    simp only [Function.comp_apply, lowerL_isEmpty]
  rw [h2]

theorem textCleanOf_lowerL (t : List Char) :
    textCleanOf (lowerL t) = lowerL (textCleanOf t) := by
  unfold textCleanOf
  rw [subFillers_lowerL, stripL_lowerL]

/-- Lowercasing the input does not change the routing result. -/
theorem routeCmdL_lowerL (t : List Char) :
    routeCmdL (lowerL t) = routeCmdL t := by
  unfold routeCmdL
  rw [textCleanOf_lowerL]
  by_cases h0 : textCleanOf t = []
  · simp [h0, lowerL]
  · have h0l : ¬ lowerL (textCleanOf t) = [] := by
      intro hh
      exact h0 (List.map_eq_nil_iff.mp hh)
    rw [if_neg h0l, if_neg h0, partsOf_lowerL, List.length_map]
    by_cases hl : 1 < (partsOf (textCleanOf t)).length
    · rw [if_pos hl, if_pos hl, matchAll_lowerL]
    · rw [if_neg hl, if_neg hl, matchSingle_lowerL]

/-- `text.lower()` as a `String` operation. -/
def lowerString (s : String) : String := ⟨lowerL s.data⟩

/-- Claim C10: `route_command` is case-insensitive end to end — routing the
lowercased input gives exactly the routing of the original, and any two
inputs with the same lowercase form route identically (same match/`none`
outcome, action kinds, parameters and order); filler stripping, compound
splitting, pattern matching, special-turn-phrase detection and word-number
lookup all operate on case-folded text. -/
theorem c10_case_insensitive :
    (∀ s : String, route_command (lowerString s) = route_command s) ∧
    (∀ s t : String, lowerL s.data = lowerL t.data →
      route_command s = route_command t) := by
  constructor
  · intro s
    exact routeCmdL_lowerL s.data
  · intro s t h
    unfold route_command
    rw [← routeCmdL_lowerL s.data, ← routeCmdL_lowerL t.data, h]

/-- Claim C10, witness: the uppercase variant of "avanza y para" routes to
the same result. -/
theorem c10_witness :
    route_command "AVANZA Y PARA" = route_command "avanza y para" :=
  c10_case_insensitive.2 "AVANZA Y PARA" "avanza y para" (by decide)

end PiVoice
